import Mathlib

set_option autoImplicit false

/-!
Verification of the `greins` application host (`greins/app.py`): the mount-path
normalization and conflict handling of `GreinsApplication.load_file`, the hook
registration of `GreinsApplication._setup_hooks`, the hook fan-out of
`GreinsApplication._do_hook`, and the boot path `GreinsApplication.load`.
The mount table itself lives in `greins/router.py`, which is an external module
here; it is modelled from the spec where needed.
-/

namespace Greins

/-- Opaque reference to a WSGI handler object.  Python compares handler objects
with `!=` / truthiness; we model references as naturals with decidable equality. -/
abbrev Handler := Nat

/-- A mount path: the character sequence of a Python `str`. -/
abbrev Path := List Char

/-- View a Lean string literal as a `Path`. -/
def mkPath (s : String) : Path := s.data

/-- Python `r.endswith('/')` from `GreinsApplication.load_file`. -/
def endsWithSlash (r : Path) : Bool := r.getLast? == some '/'

/-- Python `r.rstrip('/')` from `GreinsApplication.load_file`: removes every
trailing `'/'` character. -/
def rstripSlash (r : Path) : Path := (r.reverse.dropWhile (fun c => c == '/')).reverse

/-- Python `r.startswith('/')` from `GreinsApplication.load_file`. -/
def startsWithSlash (r : Path) : Bool := r.head? == some '/'

/-- The mount-path normalization performed inline by the mount loop of
`GreinsApplication.load_file`:
`if r.endswith('/'): r = r.rstrip('/')` then
`if r and not r.startswith('/'): r = '/' + r`. -/
def normalize (r : Path) : Path :=
  let r1 := if endsWithSlash r then rstripSlash r else r
  if !r1.isEmpty && !startsWithSlash r1 then '/' :: r1 else r1

/-- Modelled from the spec: `greins/router.py` is not under `src/`.  The Mount
Table is a mapping of normalized path prefixes to handler references with
unique keys, kept here as the association list of its entries. -/
structure Router where
  mounts : List (Path × Handler)
deriving DecidableEq

/-- Modelled from the spec: `Router()` starts empty. -/
def Router.empty : Router := { mounts := [] }

/-- Modelled from the spec: `add_mount(path, handler)` inserts if absent; if the
key is already present it returns the existing handler unchanged (the insertion
is a no-op), so callers can compare the returned value against the supplied one
to detect a conflict. -/
def Router.add_mount (rt : Router) (p : Path) (h : Handler) : Router × Handler :=
  match rt.mounts.lookup p with
  | some h0 => (rt, h0)
  | none => ({ mounts := rt.mounts ++ [(p, h)] }, h)

/-- Modelled from the spec: the entry whose path is the longest prefix of the
request path, among the given mount entries. -/
def bestMatch (req : Path) : List (Path × Handler) → Option (Path × Handler)
  | [] => none
  | e :: es =>
    match bestMatch req es with
    | none => if e.1.isPrefixOf req then some e else none
    | some b => if e.1.isPrefixOf req && decide (b.1.length < e.1.length) then some e else some b

/-- Modelled from the spec: `resolve(request_path)` returns the handler at the
longest mounted prefix that is a prefix of the request path, `none` (NotFound)
if no mounted prefix matches. -/
def Router.resolve (rt : Router) (req : Path) : Option Handler :=
  (bestMatch req rt.mounts).map Prod.snd

/-- Truthiness of a value found in a configuration scope: `falsy` stands for
Python `None`, `0`, an empty container, or an absent binding; `truthy h` is a
handler object. -/
inductive HookVal where
  | falsy
  | truthy (h : Handler)
deriving DecidableEq

/-- One entry of `GreinsApplication._hooks`: the dict
`{"handlers": [...], "validator": obj.validator}` built by `setup_hooks`.
A validator that returns `false` models `hook['validator'](handler)` raising. -/
structure HookEntry where
  validator : Handler → Bool
  handlers : List Handler

/-- The scope dict left behind by `execfile(cf, cfg, cfg)`: the `mounts` dict
contents and the bindings the unit made for recognized hook names. -/
structure ConfigScope where
  mounts : List (Path × Handler)
  hookBindings : List (String × HookVal)

/-- One configuration unit (`*.py` file): its name (`cf_name`, the basename
without extension) and the scope its body produces; `none` means `execfile`
raised. -/
structure ConfigUnit where
  name : String
  body : Option ConfigScope

/-- The shared mutable state populated by the loader threads:
`self._router` and `self._hooks`. -/
structure AppState where
  router : Router
  hooks : List (String × HookEntry)

/-- Python `cfg.get(name)` in `_setup_hooks`: an absent binding yields `None`,
which is falsy. -/
def scopeGet (scope : ConfigScope) (n : String) : HookVal :=
  match scope.hookBindings.lookup n with
  | some v => v
  | none => HookVal.falsy

/-- `GreinsApplication._setup_hooks(cfg)`: for each registry entry, read the
unit's binding for the hook name; a falsy binding is skipped; otherwise
`hook['validator'](handler)` runs and, if it does not raise, the handler is
appended to the entry's `handlers` list in place.  Returns the updated registry,
the log of validator calls in order, and `true` unless a validator raised.
A raising validator stops the iteration; in-place mutations made by earlier
iterations persist. -/
def setupHooks (scope : ConfigScope) : List (String × HookEntry) →
    List (String × HookEntry) × List (String × Handler) × Bool
  | [] => ([], [], true)
  | (n, e) :: rest =>
    match scopeGet scope n with
    | HookVal.falsy =>
      let (rs, log, ok) := setupHooks scope rest
      ((n, e) :: rs, log, ok)
    | HookVal.truthy h =>
      if e.validator h then
        let (rs, log, ok) := setupHooks scope rest
        ((n, { e with handlers := e.handlers ++ [h] }) :: rs, (n, h) :: log, ok)
      else
        ((n, e) :: rest, [(n, h)], false)

/-- Outcome of one `load_file` call as seen by its caller: `completed` (no
exception), `caught` (an `Exception` was caught, logged and swallowed by the
`except` clause, so `load_file` still returns normally), or `sysExit code`
(`sys.exit(code)` raised `SystemExit`, which the `except Exception` clause does
not catch, so it propagates out of `load_file`). -/
inductive LoadOutcome where
  | completed
  | caught
  | sysExit (code : Nat)
deriving DecidableEq

/-- The mount loop of `GreinsApplication.load_file`: for each `(r, a)` in
`cfg['mounts']`, normalize `r` and call `self._router.add_mount(r, a)`; if the
returned handler differs from `a`, log the conflict and `sys.exit(1)`
(`some 1`).  Mounts added before a conflict stay in the router. -/
def loadMounts : List (Path × Handler) → Router → Router × Option Nat
  | [], rt => (rt, none)
  | (r, a) :: rest, rt =>
    let step := rt.add_mount (normalize r) a
    if step.2 == a then loadMounts rest step.1
    else (step.1, some 1)

/-- `GreinsApplication.load_file(cf)` as a transformer of the shared state.
`resolveApp` models the external resolution collaborator
(`gunicorn.util.import_app`); `none` means it raised.  Steps: run the unit body
(`execfile`); if `cfg['mounts']` is empty, mount `'/' + app_name` at the handler
`import_app(app_name)` resolves; run the mount loop; run `_setup_hooks`.  Any
`Exception` along the way is caught and logged (`caught`); a routing conflict
raises `SystemExit` (`sysExit 1`), which escapes.  Also returns the
validator-call log of the `_setup_hooks` phase. -/
def load_file (resolveApp : String → Option Handler) (u : ConfigUnit) (st : AppState) :
    AppState × LoadOutcome × List (String × Handler) :=
  match u.body with
  | none => (st, LoadOutcome.caught, [])
  | some scope =>
    let effMounts : Option (List (Path × Handler)) :=
      if scope.mounts.isEmpty then
        match resolveApp u.name with
        | none => none
        | some h => some [('/' :: u.name.data, h)]
      else
        some scope.mounts
    match effMounts with
    | none => (st, LoadOutcome.caught, [])
    | some ms =>
      match loadMounts ms st.router with
      | (rt', some code) => ({ st with router := rt' }, LoadOutcome.sysExit code, [])
      | (rt', none) =>
        let hres := setupHooks scope st.hooks
        ({ router := rt', hooks := hres.1 },
         if hres.2.2 then LoadOutcome.completed else LoadOutcome.caught, hres.2.1)

/-- CPython `threading` semantics for the loader tasks spawned by
`GreinsApplication.load`: an exception raised inside a spawned thread - the
`SystemExit` from `sys.exit` included, which `Thread` bootstrap code swallows
silently - terminates only that thread.  The process and its other threads
continue; only the thread-local mutations of the shared state remain. -/
def runLoaderThread (resolveApp : String → Option Handler) (u : ConfigUnit)
    (st : AppState) : AppState :=
  (load_file resolveApp u st).1

/-- One sequential interleaving of the spawned loader threads: each unit's
`load_file` runs to completion on the shared state in turn. -/
def runBoot (resolveApp : String → Option Handler) (units : List ConfigUnit)
    (st : AppState) : AppState :=
  units.foldl (fun s u => runLoaderThread resolveApp u s) st

/-- Calling `handler(*argtuple)` for each handler in order, as the body of
`GreinsApplication._do_hook` does; `fails h = true` models the call raising.
There is no `try` around the calls: the first raising handler aborts the loop
and the exception propagates (`false`).  Returns the calls made, in order. -/
def fireList {α : Type} (fails : Handler → Bool) : List Handler → α → List (Handler × α) × Bool
  | [], _ => ([], true)
  | h :: hs, args =>
    if fails h then ([(h, args)], false)
    else
      let res := fireList fails hs args
      ((h, args) :: res.1, res.2)

/-- `GreinsApplication._do_hook(name, argtuple)`: iterates over
`self._hooks[name]['handlers']` calling each handler with the arguments; the
registry is only read, never written.  An unknown name models the `KeyError`
from the dict lookup. -/
def do_hook {α : Type} (fails : Handler → Bool) (hooks : List (String × HookEntry))
    (name : String) (argtuple : α) : List (Handler × α) × Bool × List (String × HookEntry) :=
  match hooks.lookup name with
  | none => ([], false, hooks)
  | some entry =>
    let res := fireList fails entry.handlers argtuple
    (res.1, res.2, hooks)

/-- Whether a registry entry would survive `_setup_hooks` without its validator
raising: a falsy binding is skipped, a truthy one must pass the validator. -/
def bindingOk (scope : ConfigScope) (p : String × HookEntry) : Bool :=
  match scopeGet scope p.1 with
  | HookVal.falsy => true
  | HookVal.truthy h => p.2.validator h

/-- The effect of one `_setup_hooks` iteration on one registry entry, when no
earlier iteration raised: append the unit's handler when the binding is truthy
and valid, otherwise leave the entry alone. -/
def applyBinding (scope : ConfigScope) (p : String × HookEntry) : String × HookEntry :=
  match scopeGet scope p.1 with
  | HookVal.falsy => p
  | HookVal.truthy h =>
    if p.2.validator h then (p.1, { p.2 with handlers := p.2.handlers ++ [h] }) else p

/-- The validator calls `_setup_hooks` makes over a registry segment none of
whose entries raise: one call per truthy binding, in registry order. -/
def vlogOf (scope : ConfigScope) (hooks : List (String × HookEntry)) :
    List (String × Handler) :=
  hooks.filterMap (fun p =>
    match scopeGet scope p.1 with
    | HookVal.falsy => none
    | HookVal.truthy h => some (p.1, h))

/-- A thread-management operation performed by `GreinsApplication.load`. -/
inductive ThreadOp where
  | start (unitName : String)
  | join (unitName : String)
deriving DecidableEq

/-- `true` exactly on `ThreadOp.start` operations. -/
def ThreadOp.isStart : ThreadOp → Bool
  | ThreadOp.start _ => true
  | ThreadOp.join _ => false

/-- What `GreinsApplication.load` has done by the time it returns. -/
structure BootResult where
  trace : List ThreadOp
  pending : List ConfigUnit
  state : AppState
  returned : Router

/-- `GreinsApplication.load()`: builds a fresh `Router` and the hook registry
from the server-hook settings, then for every discovered unit spawns
`threading.Thread(target=self.load_file, args=[cf]).start()` - there is no
corresponding `join` anywhere - and immediately returns `self._router`.  The
spawned threads are still pending; `returned` is the very router they mutate. -/
def greinsLoad (serverHooks : List (String × (Handler → Bool)))
    (units : List ConfigUnit) : BootResult :=
  let st0 : AppState :=
    { router := Router.empty,
      hooks := serverHooks.map (fun nv => (nv.1, { validator := nv.2, handlers := [] })) }
  { trace := units.map (fun u => ThreadOp.start u.name),
    pending := units,
    state := st0,
    returned := st0.router }

end Greins

namespace Greins

theorem head?_dropWhile_slash (l : List Char) :
    (l.dropWhile (fun c => c == '/')).head? ≠ some '/' := by
  induction l with
  | nil => simp
  | cons c cs ih =>
    rw [List.dropWhile_cons]
    by_cases hc : (c == '/') = true
    · rw [if_pos hc]; exact ih
    · rw [if_neg hc]
      intro h
      simp only [List.head?_cons, Option.some.injEq] at h
      exact hc (by simp [h])

theorem endsWithSlash_rstripSlash (r : Path) : endsWithSlash (rstripSlash r) = false := by
  unfold endsWithSlash rstripSlash
  rw [List.getLast?_reverse]
  exact beq_eq_false_iff_ne.mpr (head?_dropWhile_slash r.reverse)

/-- The first normalization step (conditional rstrip) never leaves a trailing
slash behind. -/
theorem endsWithSlash_step1 (r : Path) :
    endsWithSlash (if endsWithSlash r then rstripSlash r else r) = false := by
  cases h : endsWithSlash r
  · simp [h]
  · simp [h, endsWithSlash_rstripSlash]

/-- Shape of a normalized mount path: empty, or leading slash and no trailing
slash. -/
theorem normalize_shape (r : Path) :
    normalize r = [] ∨
      (startsWithSlash (normalize r) = true ∧ endsWithSlash (normalize r) = false) := by
  unfold normalize
  have hr1 := endsWithSlash_step1 r
  set r1 := if endsWithSlash r then rstripSlash r else r with hdef
  by_cases hc : (!r1.isEmpty && !startsWithSlash r1) = true
  · right
    rw [if_pos hc]
    have hne : r1 ≠ [] := by
      intro h0
      rw [h0] at hc
      simp at hc
    refine ⟨rfl, ?_⟩
    obtain ⟨c, cs, hcc⟩ := List.exists_cons_of_ne_nil hne
    rw [hcc]
    unfold endsWithSlash at hr1 ⊢
    rw [List.getLast?_cons_cons]
    rw [hcc] at hr1
    exact hr1
  · rw [if_neg hc]
    by_cases he : r1.isEmpty
    · left
      exact List.isEmpty_iff.mp he
    · right
      have hie : r1.isEmpty = false := by
        cases hh : r1.isEmpty
        · rfl
        · exact absurd hh (by simpa using he)
      have hs : startsWithSlash r1 = true := by
        cases hss : startsWithSlash r1
        · exact absurd (by simp [hie, hss]) hc
        · rfl
      exact ⟨hs, hr1⟩

/-- C4 counterexample: the claim states that the root path `'/'` remains `'/'`
after normalization, but `'/'.rstrip('/')` is the empty string, and since the
empty string is falsy no leading slash is re-added: the stored mount path is
`''`, not `'/'`. -/
theorem greins_C4_root_cex :
    normalize (mkPath "/") = mkPath "" ∧
    mkPath "" ≠ mkPath "/" ∧
    loadMounts [(mkPath "/", 7)] Router.empty = ({ mounts := [([], 7)] }, none) := by
  decide

/-- C4 (amended): the stored path is the normalization of the supplied string,
where normalization strips trailing `'/'` characters and adds a leading `'/'`
to any nonempty result that lacks one; a nonempty normalized path starts with
`'/'` and does not end with `'/'`, but the root path `'/'` (and any string of
only slashes) normalizes to the empty string.  `add_mount('foo/', H)` goes
through the same normalized key as `add_mount('/foo', H)`, and `resolve('/foo')`
then succeeds with `H`. -/
theorem greins_C4_normalization :
    (∀ (r : Path) (a : Handler),
        loadMounts [(r, a)] Router.empty = ({ mounts := [(normalize r, a)] }, none)) ∧
    (∀ r : Path, normalize r = [] ∨
        (startsWithSlash (normalize r) = true ∧ endsWithSlash (normalize r) = false)) ∧
    normalize (mkPath "foo/") = normalize (mkPath "/foo") ∧
    (∀ H : Handler,
        (Router.empty.add_mount (normalize (mkPath "foo/")) H).1.resolve (mkPath "/foo")
          = some H) := by
  refine ⟨?_, normalize_shape, by decide, ?_⟩
  · intro r a
    simp [loadMounts, Router.add_mount, Router.empty]
  · intro H
    rfl

/-- C1: evaluation at the failing input.  A unit mounting `/shared` while the
shared router already maps `/shared` to a different handler makes `load_file`
log the conflict and call `sys.exit(1)`: the raised `SystemExit` escapes the
`except Exception` clause (`sysExit 1`).  But `load_file` runs as the target of
a spawned `threading.Thread`, whose bootstrap code swallows `SystemExit`, so
only that loader thread dies: the process state is intact and serving
continues. -/
theorem greins_C1_conflict_sysexit :
    load_file (fun _ => none)
        { name := "b", body := some { mounts := [(mkPath "/shared", 2)], hookBindings := [] } }
        { router := { mounts := [(mkPath "/shared", 1)] }, hooks := [] }
      = ({ router := { mounts := [(mkPath "/shared", 1)] }, hooks := [] },
         LoadOutcome.sysExit 1, []) ∧
    runLoaderThread (fun _ => none)
        { name := "b", body := some { mounts := [(mkPath "/shared", 2)], hookBindings := [] } }
        { router := { mounts := [(mkPath "/shared", 1)] }, hooks := [] }
      = { router := { mounts := [(mkPath "/shared", 1)] }, hooks := [] } :=
  ⟨rfl, rfl⟩

/-- C2 counterexample: with handlers `[1, 2, 3]` registered for `pre_fork` and
handler `2` raising, `_do_hook` invokes `1` and `2` only - handler `3` is never
called - and the exception propagates to the caller (`false`), contradicting
the claim that the failure is captured and the remaining handlers still run. -/
theorem greins_C2_failure_stops_fanout :
    (do_hook (fun h => h == 2)
        [("pre_fork", { validator := fun _ => true, handlers := [1, 2, 3] })]
        "pre_fork" (0 : Nat)).1 = [(1, 0), (2, 0)] ∧
    (do_hook (fun h => h == 2)
        [("pre_fork", { validator := fun _ => true, handlers := [1, 2, 3] })]
        "pre_fork" (0 : Nat)).2.1 = false :=
  ⟨rfl, rfl⟩

theorem fireList_all_ok {α : Type} (fails : Handler → Bool) (hs : List Handler) (args : α)
    (h : ∀ x ∈ hs, fails x = false) :
    fireList fails hs args = (hs.map (fun x => (x, args)), true) := by
  induction hs with
  | nil => rfl
  | cons a as ih =>
    have ha : fails a = false := h a (by simp)
    simp [fireList, ha, ih (fun x hx => h x (by simp [hx]))]

theorem fireList_first_failure {α : Type} (fails : Handler → Bool) (pre : List Handler)
    (hbad : Handler) (post : List Handler) (args : α)
    (hpre : ∀ x ∈ pre, fails x = false) (hb : fails hbad = true) :
    fireList fails (pre ++ hbad :: post) args
      = ((pre ++ [hbad]).map (fun x => (x, args)), false) := by
  induction pre with
  | nil => simp [fireList, hb]
  | cons a as ih =>
    have ha : fails a = false := hpre a (by simp)
    simp [fireList, ha, ih (fun x hx => hpre x (by simp [hx]))]

/-- C2 (amended): `_do_hook` invokes the registered handlers in registration
order with the given arguments, and the registry is only read, never written;
but there is no exception handling around the calls: when every handler
succeeds all are invoked, while the first raising handler ends the fan-out -
the handlers after it are not invoked and the exception propagates to the
caller of the fired hook. -/
theorem greins_C2_amended_fanout :
    (∀ (α : Type) (fails : Handler → Bool) (hs : List Handler) (args : α),
        (∀ x ∈ hs, fails x = false) →
        fireList fails hs args = (hs.map (fun x => (x, args)), true)) ∧
    (∀ (α : Type) (fails : Handler → Bool) (pre : List Handler) (hbad : Handler)
        (post : List Handler) (args : α),
        (∀ x ∈ pre, fails x = false) → fails hbad = true →
        fireList fails (pre ++ hbad :: post) args
          = ((pre ++ [hbad]).map (fun x => (x, args)), false)) ∧
    (∀ (α : Type) (fails : Handler → Bool) (hooks : List (String × HookEntry))
        (name : String) (args : α), (do_hook fails hooks name args).2.2 = hooks) := by
  refine ⟨fun _ => fireList_all_ok, fun _ => fireList_first_failure, ?_⟩
  intro α fails hooks name args
  unfold do_hook
  cases hooks.lookup name <;> rfl

theorem greins_C2_amended_witness :
    (∀ x ∈ [1], ((x == 2 : Bool)) = false) ∧
    fireList (fun h => h == 2) ([1] ++ 2 :: [3]) (0 : Nat)
      = (([1] ++ [2]).map (fun x => (x, 0)), false) :=
  ⟨by decide,
   greins_C2_amended_fanout.2.1 Nat (fun h => h == 2) [1] 2 [3] 0 (by decide) (by decide)⟩

/-- C10: re-mounting the identical handler at an already-mounted (normalized)
path is not a conflict: `add_mount` returns the existing handler, which equals
the supplied one, so the conflict check does not fire, the mount loop reports
no exit, the table is unchanged, and the unit's `load_file` does not raise
`SystemExit`. -/
theorem greins_C10_remount_same_handler :
    ∀ (rt : Router) (p : Path) (H : Handler),
      rt.mounts.lookup (normalize p) = some H →
      rt.add_mount (normalize p) H = (rt, H) ∧
      loadMounts [(p, H)] rt = (rt, none) ∧
      (∀ (resolveApp : String → Option Handler) (nm : String)
          (hb : List (String × HookVal)) (hooks : List (String × HookEntry)),
        (load_file resolveApp { name := nm, body := some { mounts := [(p, H)], hookBindings := hb } }
            { router := rt, hooks := hooks }).1.router = rt ∧
        (load_file resolveApp { name := nm, body := some { mounts := [(p, H)], hookBindings := hb } }
            { router := rt, hooks := hooks }).2.1 ≠ LoadOutcome.sysExit 1) := by
  intro rt p H hl
  have hadd : rt.add_mount (normalize p) H = (rt, H) := by
    unfold Router.add_mount
    rw [hl]
  have hlm : loadMounts [(p, H)] rt = (rt, none) := by
    simp [loadMounts, hadd]
  refine ⟨hadd, hlm, ?_⟩
  intro resolveApp nm hb hooks
  have hred : load_file resolveApp
      { name := nm, body := some { mounts := [(p, H)], hookBindings := hb } }
      { router := rt, hooks := hooks }
      = ({ router := rt, hooks := (setupHooks { mounts := [(p, H)], hookBindings := hb } hooks).1 },
         (if (setupHooks { mounts := [(p, H)], hookBindings := hb } hooks).2.2 then
            LoadOutcome.completed else LoadOutcome.caught),
         (setupHooks { mounts := [(p, H)], hookBindings := hb } hooks).2.1) := by
    simp [load_file, hlm]
  rw [hred]
  refine ⟨rfl, ?_⟩
  cases (setupHooks { mounts := [(p, H)], hookBindings := hb } hooks).2.2 <;> simp

/-- C3 counterexample: a unit that declares the mount `/a` and binds
`on_starting` to a handler its validator rejects fails with an exception
(caught and logged, outcome `caught`), yet its mount is already merged into the
shared router: the failed unit contributed a mount, contradicting the claim
that a unit whose load fails at any point contributes zero mounts. -/
theorem greins_C3_partial_contribution_cex :
    (load_file (fun _ => none)
        { name := "a",
          body := some { mounts := [(mkPath "/a", 4)],
                         hookBindings := [("on_starting", HookVal.truthy 7)] } }
        { router := Router.empty,
          hooks := [("on_starting", { validator := fun h => h == 9, handlers := [] })] }).2.1
      = LoadOutcome.caught ∧
    (load_file (fun _ => none)
        { name := "a",
          body := some { mounts := [(mkPath "/a", 4)],
                         hookBindings := [("on_starting", HookVal.truthy 7)] } }
        { router := Router.empty,
          hooks := [("on_starting", { validator := fun h => h == 9, handlers := [] })] }).1.router
      = { mounts := [(mkPath "/a", 4)] } :=
  ⟨rfl, rfl⟩

/-- C3 (amended): a unit whose load fails before any contribution is merged -
its body raises, or it declared no mounts and the default-convention resolution
of its own name raises - contributes zero mounts and zero hook handlers: the
shared state is exactly as if the unit had never been loaded, and a succeeding
sibling unit's load is unaffected.  (A failure after merging began - a
mount conflict after earlier mounts, or a hook-validator failure after the
mounts - can leave the unit's earlier contributions in place.) -/
theorem greins_C3_amended_isolation :
    ∀ (resolveApp : String → Option Handler) (u : ConfigUnit) (st : AppState),
      (u.body = none ∨ ∃ s, u.body = some s ∧ s.mounts = [] ∧ resolveApp u.name = none) →
      load_file resolveApp u st = (st, LoadOutcome.caught, []) ∧
      (∀ v : ConfigUnit, runBoot resolveApp [u, v] st = runLoaderThread resolveApp v st) := by
  intro resolveApp u st h
  have hmain : load_file resolveApp u st = (st, LoadOutcome.caught, []) := by
    rcases h with h | ⟨s, hb, hm, hr⟩
    · simp [load_file, h]
    · simp [load_file, hb, hm, hr]
  refine ⟨hmain, ?_⟩
  intro v
  simp [runBoot, runLoaderThread, hmain]

theorem greins_C3_amended_witness :
    ((⟨"bad", none⟩ : ConfigUnit).body = none ∨
      ∃ s, (⟨"bad", none⟩ : ConfigUnit).body = some s ∧ s.mounts = [] ∧
        (fun (_ : String) => (none : Option Handler)) "bad" = none) ∧
    load_file (fun _ => none) ⟨"bad", none⟩ { router := Router.empty, hooks := [] }
      = ({ router := Router.empty, hooks := [] }, LoadOutcome.caught, []) ∧
    runBoot (fun _ => none)
        [⟨"bad", none⟩, ⟨"api", some { mounts := [(mkPath "/api", 2)], hookBindings := [] }⟩]
        { router := Router.empty, hooks := [] }
      = runLoaderThread (fun _ => none)
          ⟨"api", some { mounts := [(mkPath "/api", 2)], hookBindings := [] }⟩
          { router := Router.empty, hooks := [] } :=
  ⟨Or.inl rfl,
   (greins_C3_amended_isolation (fun _ => none) ⟨"bad", none⟩
      { router := Router.empty, hooks := [] } (Or.inl rfl)).1,
   (greins_C3_amended_isolation (fun _ => none) ⟨"bad", none⟩
      { router := Router.empty, hooks := [] } (Or.inl rfl)).2
     ⟨"api", some { mounts := [(mkPath "/api", 2)], hookBindings := [] }⟩⟩

/-- A path of the shape `'/' + name`, where `name` is a nonempty unit name
containing no slash, is already normalized. -/
theorem normalize_slash_cons (l : List Char) (h1 : l ≠ []) (h2 : '/' ∉ l) :
    normalize ('/' :: l) = '/' :: l := by
  have hend : endsWithSlash ('/' :: l) = false := by
    obtain ⟨c, cs, rfl⟩ := List.exists_cons_of_ne_nil h1
    show ((('/' : Char) :: c :: cs).getLast? == some '/') = false
    rw [List.getLast?_cons_cons]
    cases hq : (c :: cs).getLast? with
    | none => rfl
    | some x =>
      have hx : x ∈ c :: cs := List.mem_of_mem_getLast? (by rw [hq]; exact rfl)
      have hxne : x ≠ '/' := fun he => h2 (he ▸ hx)
      simp [hxne]
  simp [normalize, hend, startsWithSlash]

/-- C6: a unit that declares zero mounts is mounted by the default convention:
exactly one new table entry, at `'/' + unit_name`, bound to the handler that
the external resolution collaborator (`import_app`) produces for the unit's own
name; and no routing conflict is raised when the path is fresh. -/
theorem greins_C6_default_convention :
    ∀ (resolveApp : String → Option Handler) (u : ConfigUnit) (st : AppState)
      (scope : ConfigScope) (H : Handler),
      u.body = some scope → scope.mounts = [] → resolveApp u.name = some H →
      u.name.data ≠ [] → '/' ∉ u.name.data →
      st.router.mounts.lookup ('/' :: u.name.data) = none →
      (load_file resolveApp u st).1.router.mounts
          = st.router.mounts ++ [('/' :: u.name.data, H)] ∧
      (load_file resolveApp u st).2.1 ≠ LoadOutcome.sysExit 1 := by
  intro resolveApp u st scope H hb hm hr hn hsl hlk
  have hnorm : normalize ('/' :: u.name.data) = '/' :: u.name.data :=
    normalize_slash_cons _ hn hsl
  have hadd : st.router.add_mount ('/' :: u.name.data) H
      = ({ mounts := st.router.mounts ++ [('/' :: u.name.data, H)] }, H) := by
    unfold Router.add_mount
    rw [hlk]
  have hlm : loadMounts [('/' :: u.name.data, H)] st.router
      = ({ mounts := st.router.mounts ++ [('/' :: u.name.data, H)] }, none) := by
    simp [loadMounts, hnorm, hadd]
  have hred : load_file resolveApp u st
      = ({ router := { mounts := st.router.mounts ++ [('/' :: u.name.data, H)] },
           hooks := (setupHooks scope st.hooks).1 },
         (if (setupHooks scope st.hooks).2.2 then LoadOutcome.completed
          else LoadOutcome.caught),
         (setupHooks scope st.hooks).2.1) := by
    simp [load_file, hb, hm, hr, hlm]
  rw [hred]
  refine ⟨rfl, ?_⟩
  cases (setupHooks scope st.hooks).2.2 <;> simp

theorem greins_C6_witness :
    ((⟨"blog", some { mounts := [], hookBindings := [] }⟩ : ConfigUnit).body
        = some { mounts := [], hookBindings := [] }) ∧
    ("blog".data ≠ [] ∧ '/' ∉ "blog".data) ∧
    (load_file (fun _ => some 3) ⟨"blog", some { mounts := [], hookBindings := [] }⟩
        { router := Router.empty, hooks := [] }).1.router.mounts
      = Router.empty.mounts ++ [('/' :: "blog".data, 3)] :=
  ⟨rfl, ⟨by decide, by decide⟩,
   (greins_C6_default_convention (fun _ => some 3)
      ⟨"blog", some { mounts := [], hookBindings := [] }⟩
      { router := Router.empty, hooks := [] }
      { mounts := [], hookBindings := [] } 3
      rfl rfl rfl (by decide) (by decide) rfl).1⟩

theorem greins_C10_witness :
    ([(mkPath "/a", (5 : Handler))].lookup (normalize (mkPath "a/")) = some 5) ∧
    Router.add_mount { mounts := [(mkPath "/a", 5)] } (normalize (mkPath "a/")) 5
      = ({ mounts := [(mkPath "/a", 5)] }, 5) ∧
    loadMounts [(mkPath "a/", 5)] { mounts := [(mkPath "/a", 5)] }
      = ({ mounts := [(mkPath "/a", 5)] }, none) :=
  ⟨by decide,
   (greins_C10_remount_same_handler { mounts := [(mkPath "/a", 5)] } (mkPath "a/") 5 (by decide)).1,
   (greins_C10_remount_same_handler { mounts := [(mkPath "/a", 5)] } (mkPath "a/") 5 (by decide)).2.1⟩

/-- A falsy binding leaves its registry entry untouched at the same position,
whatever happens around it. -/
theorem setupHooks_falsy_entry (scope : ConfigScope) :
    ∀ (hooks : List (String × HookEntry)) (i : Nat) (n : String) (e : HookEntry),
      hooks[i]? = some (n, e) → scopeGet scope n = HookVal.falsy →
      (setupHooks scope hooks).1[i]? = some (n, e) := by
  intro hooks
  induction hooks with
  | nil => intro i n e h _; simp at h
  | cons p rest ih =>
    intro i n e hidx hf
    obtain ⟨m, e'⟩ := p
    cases i with
    | zero =>
      simp only [List.getElem?_cons_zero, Option.some.injEq] at hidx
      obtain ⟨rfl, rfl⟩ : m = n ∧ e' = e := Prod.mk.injEq .. ▸ hidx
      simp [setupHooks, hf]
    | succ j =>
      have hidx' : rest[j]? = some (n, e) := by simpa using hidx
      cases hsg : scopeGet scope m with
      | falsy => simp [setupHooks, hsg, ih j n e hidx' hf]
      | truthy h0 =>
        by_cases hv : e'.validator h0
        · simp [setupHooks, hsg, hv, ih j n e hidx' hf]
        · simp [setupHooks, hsg, hv, hidx']

/-- Every validator call logged by `_setup_hooks` comes from a truthy binding of
that hook name in the unit's scope. -/
theorem setupHooks_log_truthy (scope : ConfigScope) :
    ∀ (hooks : List (String × HookEntry)) (m : String) (h : Handler),
      (m, h) ∈ (setupHooks scope hooks).2.1 → scopeGet scope m = HookVal.truthy h := by
  intro hooks
  induction hooks with
  | nil => intro m h hm; simp [setupHooks] at hm
  | cons p rest ih =>
    intro m h hm
    obtain ⟨n, e⟩ := p
    cases hsg : scopeGet scope n with
    | falsy =>
      simp [setupHooks, hsg] at hm
      exact ih m h hm
    | truthy h0 =>
      by_cases hv : e.validator h0
      · simp [setupHooks, hsg, hv] at hm
        rcases hm with ⟨rfl, rfl⟩ | hm'
        · exact hsg
        · exact ih m h hm'
      · simp [setupHooks, hsg, hv] at hm
        obtain ⟨rfl, rfl⟩ := hm
        exact hsg

/-- When every binding is falsy, `_setup_hooks` is the identity: no validator
runs, no handler is appended, no error is raised. -/
theorem setupHooks_all_falsy (scope : ConfigScope) :
    ∀ hooks : List (String × HookEntry),
      (∀ p ∈ hooks, scopeGet scope p.1 = HookVal.falsy) →
      setupHooks scope hooks = (hooks, [], true) := by
  intro hooks
  induction hooks with
  | nil => intro _; rfl
  | cons p rest ih =>
    intro h
    obtain ⟨n, e⟩ := p
    have hn : scopeGet scope n = HookVal.falsy := h (n, e) (by simp)
    have hr := ih (fun q hq => h q (by simp [hq]))
    simp [setupHooks, hn, hr]

/-- C9: a hook name bound to a falsy value (None, 0, empty container, or simply
unbound) is silently skipped by `_setup_hooks`: its registry entry is unchanged
at its position, the validator is never run for it (every logged validator call
comes from a truthy binding), and when every binding is falsy the whole pass is
the identity with no error. -/
theorem greins_C9_falsy_skipped :
    ∀ (scope : ConfigScope) (hooks : List (String × HookEntry)) (i : Nat)
      (n : String) (e : HookEntry),
      hooks[i]? = some (n, e) → scopeGet scope n = HookVal.falsy →
      (setupHooks scope hooks).1[i]? = some (n, e) ∧
      (∀ m h, (m, h) ∈ (setupHooks scope hooks).2.1 → scopeGet scope m = HookVal.truthy h) ∧
      ((∀ p ∈ hooks, scopeGet scope p.1 = HookVal.falsy) →
        setupHooks scope hooks = (hooks, [], true)) :=
  fun scope hooks i n e hidx hf =>
    ⟨setupHooks_falsy_entry scope hooks i n e hidx hf,
     setupHooks_log_truthy scope hooks,
     setupHooks_all_falsy scope hooks⟩

theorem greins_C9_witness :
    ([("pre_fork", ({ validator := fun _ => false, handlers := [] } : HookEntry))][0]?
        = some ("pre_fork", { validator := fun _ => false, handlers := [] })) ∧
    scopeGet { mounts := [], hookBindings := [("pre_fork", HookVal.falsy)] } "pre_fork"
        = HookVal.falsy ∧
    (setupHooks { mounts := [], hookBindings := [("pre_fork", HookVal.falsy)] }
        [("pre_fork", { validator := fun _ => false, handlers := [] })]).1[0]?
      = some ("pre_fork", { validator := fun _ => false, handlers := [] }) :=
  ⟨rfl, rfl,
   (greins_C9_falsy_skipped { mounts := [], hookBindings := [("pre_fork", HookVal.falsy)] }
      [("pre_fork", { validator := fun _ => false, handlers := [] })] 0 "pre_fork"
      { validator := fun _ => false, handlers := [] } rfl rfl).1⟩

/-- When no binding makes its validator raise, `_setup_hooks` appends each
truthy binding's handler to its entry and logs one validator call per truthy
binding, in registry order, and reports no error. -/
theorem setupHooks_all_ok (scope : ConfigScope) :
    ∀ hooks : List (String × HookEntry),
      (∀ p ∈ hooks, bindingOk scope p = true) →
      setupHooks scope hooks = (hooks.map (applyBinding scope), vlogOf scope hooks, true) := by
  intro hooks
  induction hooks with
  | nil => intro _; rfl
  | cons p rest ih =>
    intro h
    obtain ⟨n, e⟩ := p
    have hn : bindingOk scope (n, e) = true := h _ (by simp)
    have hrest := ih (fun q hq => h q (by simp [hq]))
    cases hsg : scopeGet scope n with
    | falsy =>
      simp [setupHooks, hsg, hrest, applyBinding, vlogOf]
    | truthy h0 =>
      have hv : e.validator h0 = true := by
        unfold bindingOk at hn
        rw [hsg] at hn
        exact hn
      simp [setupHooks, hsg, hv, hrest, applyBinding, vlogOf]

/-- The first binding whose validator raises stops `_setup_hooks`: entries
before it keep their (possibly appended) values, the failing entry and all
later entries are untouched, the failing validator call is the last one logged,
and the pass reports the exception. -/
theorem setupHooks_first_failure (scope : ConfigScope) (n : String) (e : HookEntry)
    (h : Handler) (post : List (String × HookEntry)) :
    ∀ pre : List (String × HookEntry),
      (∀ p ∈ pre, bindingOk scope p = true) →
      scopeGet scope n = HookVal.truthy h → e.validator h = false →
      setupHooks scope (pre ++ (n, e) :: post)
        = (pre.map (applyBinding scope) ++ (n, e) :: post,
           vlogOf scope pre ++ [(n, h)], false) := by
  intro pre
  induction pre with
  | nil =>
    intro _ hsg hv
    simp [setupHooks, hsg, hv, vlogOf]
  | cons q qs ih =>
    intro hpre hsg hv
    obtain ⟨m, e'⟩ := q
    have hm : bindingOk scope (m, e') = true := hpre _ (by simp)
    have hrec := ih (fun r hr => hpre r (by simp [hr])) hsg hv
    cases hsgm : scopeGet scope m with
    | falsy =>
      simp [setupHooks, hsgm, hrec, applyBinding, vlogOf]
    | truthy h0 =>
      have hv0 : e'.validator h0 = true := by
        unfold bindingOk at hm
        rw [hsgm] at hm
        exact hm
      simp [setupHooks, hsgm, hv0, hrec, applyBinding, vlogOf]

/-- C7: for a unit binding handler `h` to hook event `n`, the event's validator
runs on `h` before any append: if it raises, the event's entry (and everything
after it) is unchanged - `h` was not appended - the pass stops with an
exception, and at the `load_file` level that exception is caught
(outcome `caught`, not a process exit); if it passes (and no other binding
raises), `h` is appended at the end of the event's ordered handler list. -/
theorem greins_C7_validator_gate :
    ∀ (scope : ConfigScope) (pre post : List (String × HookEntry)) (n : String)
      (e : HookEntry) (h : Handler),
      scopeGet scope n = HookVal.truthy h →
      (∀ p ∈ pre, bindingOk scope p = true) →
      (e.validator h = false →
        setupHooks scope (pre ++ (n, e) :: post)
          = (pre.map (applyBinding scope) ++ (n, e) :: post,
             vlogOf scope pre ++ [(n, h)], false)) ∧
      (e.validator h = true → (∀ p ∈ post, bindingOk scope p = true) →
        setupHooks scope (pre ++ (n, e) :: post)
          = ((pre ++ (n, e) :: post).map (applyBinding scope),
             vlogOf scope (pre ++ (n, e) :: post), true) ∧
        applyBinding scope (n, e)
          = (n, { validator := e.validator, handlers := e.handlers ++ [h] })) ∧
      (∀ (resolveApp : String → Option Handler) (u : ConfigUnit) (st : AppState),
        u.body = some scope → scope.mounts.isEmpty = false →
        (loadMounts scope.mounts st.router).2 = none →
        (setupHooks scope st.hooks).2.2 = false →
        (load_file resolveApp u st).2.1 = LoadOutcome.caught) := by
  intro scope pre post n e h hsg hpre
  refine ⟨?_, ?_, ?_⟩
  · intro hv
    exact setupHooks_first_failure scope n e h post pre hpre hsg hv
  · intro hv hpost
    have hall : ∀ p ∈ pre ++ (n, e) :: post, bindingOk scope p = true := by
      intro p hp
      rcases List.mem_append.mp hp with hp' | hp'
      · exact hpre p hp'
      · rcases List.mem_cons.mp hp' with rfl | hp''
        · unfold bindingOk
          rw [hsg]
          exact hv
        · exact hpost p hp''
    refine ⟨setupHooks_all_ok scope _ hall, ?_⟩
    unfold applyBinding
    rw [hsg]
    simp [hv]
  · intro resolveApp u st hb hm hlm hsf
    rcases hq : loadMounts scope.mounts st.router with ⟨rt', e2⟩
    rw [hq] at hlm
    simp only at hlm
    subst hlm
    simp [load_file, hb, hm, hq, hsf]

theorem greins_C7_witness :
    scopeGet { mounts := [], hookBindings := [("when_ready", HookVal.truthy 7)] } "when_ready"
        = HookVal.truthy 7 ∧
    (({ validator := fun x => x == 9, handlers := [5] } : HookEntry).validator 7 = false) ∧
    setupHooks { mounts := [], hookBindings := [("when_ready", HookVal.truthy 7)] }
        ([] ++ ("when_ready", ({ validator := fun x => x == 9, handlers := [5] } : HookEntry)) :: [])
      = ([].map (applyBinding { mounts := [], hookBindings := [("when_ready", HookVal.truthy 7)] })
           ++ ("when_ready", ({ validator := fun x => x == 9, handlers := [5] } : HookEntry)) :: [],
         vlogOf { mounts := [], hookBindings := [("when_ready", HookVal.truthy 7)] } []
           ++ [("when_ready", 7)], false) :=
  ⟨rfl, rfl,
   (greins_C7_validator_gate { mounts := [], hookBindings := [("when_ready", HookVal.truthy 7)] }
      [] [] "when_ready" { validator := fun x => x == 9, handlers := [5] } 7
      rfl (by simp)).1 rfl⟩

theorem bestMatch_mem (req : Path) :
    ∀ (l : List (Path × Handler)) (e : Path × Handler),
      bestMatch req l = some e → e ∈ l ∧ e.1.isPrefixOf req = true := by
  intro l
  induction l with
  | nil => intro e h; simp [bestMatch] at h
  | cons a as ih =>
    intro e h
    cases hb : bestMatch req as with
    | none =>
      simp only [bestMatch, hb] at h
      by_cases hp : a.1.isPrefixOf req
      · rw [if_pos hp] at h
        injection h with h2
        subst h2
        exact ⟨List.mem_cons_self a as, hp⟩
      · rw [if_neg hp] at h
        simp at h
    | some b =>
      simp only [bestMatch, hb] at h
      obtain ⟨hbm, hbp⟩ := ih b hb
      by_cases hc : (a.1.isPrefixOf req && decide (b.1.length < a.1.length)) = true
      · rw [if_pos hc] at h
        injection h with h2
        subst h2
        exact ⟨List.mem_cons_self a as, (Bool.and_eq_true _ _ |>.mp hc).1⟩
      · rw [if_neg hc] at h
        injection h with h2
        subst h2
        exact ⟨List.mem_cons_of_mem a hbm, hbp⟩

theorem bestMatch_none (req : Path) :
    ∀ l : List (Path × Handler), bestMatch req l = none →
      ∀ (q : Path) (h' : Handler), (q, h') ∈ l → q.isPrefixOf req = false := by
  intro l
  induction l with
  | nil => intro _ q h' hm; simp at hm
  | cons a as ih =>
    intro h q h' hm
    cases hb : bestMatch req as with
    | none =>
      simp only [bestMatch, hb] at h
      by_cases hp : a.1.isPrefixOf req
      · rw [if_pos hp] at h
        simp at h
      · rw [if_neg hp] at h
        rcases List.mem_cons.mp hm with heq | hmem
        · have hqa : q = a.1 := congrArg Prod.fst heq
          rw [hqa]
          exact Bool.eq_false_iff.mpr hp
        · exact ih hb q h' hmem
    | some b =>
      simp only [bestMatch, hb] at h
      by_cases hc : (a.1.isPrefixOf req && decide (b.1.length < a.1.length)) = true
      · rw [if_pos hc] at h
        simp at h
      · rw [if_neg hc] at h
        simp at h

theorem bestMatch_longest (req : Path) :
    ∀ (l : List (Path × Handler)) (e : Path × Handler), bestMatch req l = some e →
      ∀ (q : Path) (h' : Handler), (q, h') ∈ l → q.isPrefixOf req = true →
        q.length ≤ e.1.length := by
  intro l
  induction l with
  | nil => intro e h; simp [bestMatch] at h
  | cons a as ih =>
    intro e h q h' hm hq
    cases hb : bestMatch req as with
    | none =>
      simp only [bestMatch, hb] at h
      by_cases hp : a.1.isPrefixOf req
      · rw [if_pos hp] at h
        injection h with h2
        subst h2
        rcases List.mem_cons.mp hm with heq | hmem
        · have hqa : q = a.1 := congrArg Prod.fst heq
          rw [hqa]
        · exact absurd hq (by simp [bestMatch_none req as hb q h' hmem])
      · rw [if_neg hp] at h
        simp at h
    | some b =>
      simp only [bestMatch, hb] at h
      by_cases hc : (a.1.isPrefixOf req && decide (b.1.length < a.1.length)) = true
      · rw [if_pos hc] at h
        injection h with h2
        subst h2
        rw [Bool.and_eq_true] at hc
        have hlt : b.1.length < a.1.length := of_decide_eq_true hc.2
        rcases List.mem_cons.mp hm with heq | hmem
        · have hqa : q = a.1 := congrArg Prod.fst heq
          rw [hqa]
        · exact le_trans (ih b hb q h' hmem hq) (le_of_lt hlt)
      · rw [if_neg hc] at h
        injection h with h2
        subst h2
        rcases List.mem_cons.mp hm with heq | hmem
        · have hqa : q = a.1 := congrArg Prod.fst heq
          have hp : a.1.isPrefixOf req = true := hqa ▸ hq
          have hnlt : ¬ b.1.length < a.1.length := by
            intro hlt
            exact hc (by simp [hp, hlt])
          rw [hqa]
          exact le_of_not_lt hnlt
        · exact ih b hb q h' hmem hq

theorem bestMatch_exists (req : Path) :
    ∀ (l : List (Path × Handler)) (p : Path) (h : Handler),
      (p, h) ∈ l → p.isPrefixOf req = true → ∃ e, bestMatch req l = some e := by
  intro l
  induction l with
  | nil => intro p h hm; simp at hm
  | cons a as ih =>
    intro p h hm hp
    cases hb : bestMatch req as with
    | none =>
      simp only [bestMatch, hb]
      rcases List.mem_cons.mp hm with heq | hmem
      · have hpa : p = a.1 := congrArg Prod.fst heq
        have ha : a.1.isPrefixOf req = true := hpa ▸ hp
        exact ⟨a, by rw [if_pos ha]⟩
      · obtain ⟨e, he⟩ := ih p h hmem hp
        rw [hb] at he
        simp at he
    | some b =>
      simp only [bestMatch, hb]
      by_cases hc : (a.1.isPrefixOf req && decide (b.1.length < a.1.length)) = true
      · exact ⟨a, by rw [if_pos hc]⟩
      · exact ⟨b, by rw [if_neg hc]⟩

/-- In a table whose keys are unique, one path maps to one handler. -/
theorem mounts_nodup_handler_eq :
    ∀ l : List (Path × Handler), (l.map Prod.fst).Nodup →
      ∀ (p : Path) (a b : Handler), (p, a) ∈ l → (p, b) ∈ l → a = b := by
  intro l
  induction l with
  | nil => intro _ p a b ha; simp at ha
  | cons q qs ih =>
    intro hnd p a b ha hb
    simp only [List.map_cons, List.nodup_cons] at hnd
    obtain ⟨hq, hnd'⟩ := hnd
    rcases List.mem_cons.mp ha with ha' | ha' <;> rcases List.mem_cons.mp hb with hb' | hb'
    · have heq := ha'.trans hb'.symm
      injection heq
    · exfalso
      apply hq
      have hq1 : q.1 = p := congrArg Prod.fst ha'.symm
      have hpm : p ∈ qs.map Prod.fst := List.mem_map_of_mem Prod.fst hb'
      rw [hq1]
      exact hpm
    · exfalso
      apply hq
      have hq1 : q.1 = p := congrArg Prod.fst hb'.symm
      have hpm : p ∈ qs.map Prod.fst := List.mem_map_of_mem Prod.fst ha'
      rw [hq1]
      exact hpm
    · exact ih hnd' p a b ha' hb'

/-- C5: with unique table keys, `resolve` returns the handler mounted at the
longest mounted prefix of the request path, and NotFound (`none`) when no
mounted path is a prefix of the request; for two distinct mounted paths both
matching, the longer one wins, since distinct prefixes of one request path have
distinct lengths. -/
theorem greins_C5_longest_prefix_wins :
    ∀ (rt : Router) (req : Path),
      ((rt.mounts.map Prod.fst).Nodup →
        ∀ (p : Path) (h : Handler), (p, h) ∈ rt.mounts → p.isPrefixOf req = true →
          (∀ q ∈ rt.mounts.map Prod.fst, q.isPrefixOf req = true → q.length ≤ p.length) →
          rt.resolve req = some h) ∧
      ((∀ q ∈ rt.mounts.map Prod.fst, q.isPrefixOf req = false) →
        rt.resolve req = none) := by
  intro rt req
  constructor
  · intro hnd p h hmem0 hpre hlong
    obtain ⟨e, he⟩ := bestMatch_exists req rt.mounts p h hmem0 hpre
    obtain ⟨e1, e2⟩ := e
    obtain ⟨hmem, hepre⟩ := bestMatch_mem req rt.mounts (e1, e2) he
    have hepre1 : e1.isPrefixOf req = true := hepre
    have h1 : e1.length ≤ p.length :=
      hlong e1 (List.mem_map_of_mem Prod.fst hmem) hepre1
    have h2 : p.length ≤ e1.length :=
      bestMatch_longest req rt.mounts (e1, e2) he p h hmem0 hpre
    have hlen : p.length = e1.length := le_antisymm h2 h1
    have hp' : p <+: req := List.isPrefixOf_iff_prefix.mp hpre
    have he' : e1 <+: req := List.isPrefixOf_iff_prefix.mp hepre1
    have hpe : p = e1 := by
      rcases List.prefix_or_prefix_of_prefix hp' he' with hle | hle
      · exact hle.eq_of_length hlen
      · exact (hle.eq_of_length hlen.symm).symm
    have he2 : e2 = h := by
      apply mounts_nodup_handler_eq rt.mounts hnd p
      · rw [hpe]
        exact hmem
      · exact hmem0
    unfold Router.resolve
    rw [he]
    simp [he2]
  · intro hnone
    cases hb : bestMatch req rt.mounts with
    | none =>
      unfold Router.resolve
      rw [hb]
      rfl
    | some e =>
      obtain ⟨e1, e2⟩ := e
      obtain ⟨hmem, hepre⟩ := bestMatch_mem req rt.mounts (e1, e2) hb
      have hfalse : e1.isPrefixOf req = false :=
        hnone e1 (List.mem_map_of_mem Prod.fst hmem)
      have hepre1 : e1.isPrefixOf req = true := hepre
      rw [hepre1] at hfalse
      simp at hfalse

theorem greins_C5_witness :
    ((({ mounts := [(mkPath "/a", 1), (mkPath "/ab", 2)] } : Router).mounts.map Prod.fst).Nodup) ∧
    ({ mounts := [(mkPath "/a", 1), (mkPath "/ab", 2)] } : Router).resolve (mkPath "/ab/x")
      = some 2 :=
  ⟨by decide,
   (greins_C5_longest_prefix_wins { mounts := [(mkPath "/a", 1), (mkPath "/ab", 2)] }
      (mkPath "/ab/x")).1 (by decide) (mkPath "/ab") 2 (by decide) (by decide) (by decide)⟩

theorem all_isStart_map (units : List ConfigUnit) :
    ((units.map (fun u => ThreadOp.start u.name)).all ThreadOp.isStart) = true := by
  induction units with
  | nil => rfl
  | cons a as _ih => simp [ThreadOp.isStart]

/-- C8: the boot path spawns exactly one loader thread per discovered unit (the
trace is one `start` per unit and contains no `join` at all), leaves every
spawned task pending, and hands back the very router object the pending tasks
mutate: before a pending task runs, the returned table cannot resolve that
unit's path; running the task against the shared state makes it resolve. -/
theorem greins_C8_dispatch_no_wait :
    ∀ (serverHooks : List (String × (Handler → Bool))) (units : List ConfigUnit),
      (greinsLoad serverHooks units).trace = units.map (fun u => ThreadOp.start u.name) ∧
      ((greinsLoad serverHooks units).trace.all ThreadOp.isStart) = true ∧
      (greinsLoad serverHooks units).pending = units ∧
      (greinsLoad serverHooks units).returned = (greinsLoad serverHooks units).state.router ∧
      (greinsLoad []
          [⟨"api", some { mounts := [(mkPath "/api", 2)], hookBindings := [] }⟩]).returned.resolve
          (mkPath "/api") = none ∧
      (runLoaderThread (fun _ => none)
          ⟨"api", some { mounts := [(mkPath "/api", 2)], hookBindings := [] }⟩
          (greinsLoad []
            [⟨"api", some { mounts := [(mkPath "/api", 2)], hookBindings := [] }⟩]).state).router.resolve
          (mkPath "/api") = some 2 := by
  intro serverHooks units
  exact ⟨rfl, all_isStart_map units, rfl, rfl, by decide, by decide⟩

end Greins
